import Mathlib

/-!
Verification of the ordered enumeration protocol and the sorted key-value
index abstraction of the perkeep repository (pkg/blobserver/s3/enumerate.go
and the mongo index file).

Go strings are embedded as `List Nat` of byte values; machine bytes wrap
modulo 256 where the source increments them, and the uint32 size cast is
modelled as reduction modulo 2^32.  Functions not present in the repository
sources (the s3 client's ListBucket, blob.Parse, the mgo driver calls,
Go's path.Split) are modelled from the specification's words; each such
definition carries a doc comment saying so.
-/

/-- Byte-wise lexicographic strict order on byte strings, exactly Go's
string comparison: a proper front part is smaller, otherwise the first
differing byte decides. -/
def lexLt : List Nat → List Nat → Bool
  | _, [] => false
  | [], _ :: _ => true
  | a :: as, b :: bs => if a < b then true else if b < a then false else lexLt as bs

/-- Non-strict byte-wise lexicographic order, derived from `lexLt`. -/
def lexLe (a b : List Nat) : Bool := !(lexLt b a)

/-- The in-place carrying increment of `nextStr`, acting on the reversed byte
list (the Go loop walks the byte slice from its end): add one to the first
byte; on wrap-around to zero keep carrying into the next byte. -/
def incBytesRev : List Nat → List Nat
  | [] => []
  | b :: rest =>
      let b' := (b + 1) % 256
      if b' = 0 then b' :: incBytesRev rest else b' :: rest

/-- `nextStr` from src/pkg/blobserver/s3/enumerate.go: the string lexically
greater than s with the same length as s, produced by incrementing the byte
sequence from its last byte with carry; the empty string is returned
unchanged. -/
def nextStr (s : List Nat) : List Nat :=
  if s = [] then s else (incBytesRev s.reverse).reverse

/-- An ASCII lower-case hexadecimal digit byte. -/
def isHexDigit (b : Nat) : Bool :=
  (decide (48 ≤ b) && decide (b ≤ 57)) || (decide (97 ≤ b) && decide (b ≤ 102))

/-- The bytes of the digest-name part of an identifier, ASCII "sha1-". -/
def sha1Pfx : List Nat := [115, 104, 97, 49, 45]

/-- Modelled from the spec: blob.Parse, the Identifier Codec (its code is
outside the given sources).  The spec calls identifiers fixed-format
content-hash names parsed from text; we take the canonical perkeep form, a
digest name "sha1-" followed by exactly forty lower-case hex digits, so
every valid identifier has the same 45-byte length.  The Bool result is the
codec's ok flag. -/
def parseOk (s : List Nat) : Bool :=
  decide (s.length = 45) && decide (s.take 5 = sha1Pfx) && (s.drop 5).all isHexDigit

/-- Go's path.Split: the part through the final slash byte (47) and the
basename after it. -/
def pathSplit : List Nat → List Nat × List Nat
  | [] => ([], [])
  | b :: rest =>
      let r := pathSplit rest
      if r.1 = [] then
        if b = 47 then ([47], r.2) else ([], b :: r.2)
      else (b :: r.1, r.2)

/-- A raw backend object: key and recorded byte size. -/
structure S3Obj where
  key : List Nat
  size : Nat
deriving DecidableEq

/-- Modelled from the spec: the s3 client's ListBucket (its code is outside
the given sources).  Per the backend listing contract of spec section 6 and
the marker semantics of section 3, it returns the stored objects whose key
is at or after the start key, lexicographically ordered as stored, capped
at limit entries; the start key is included when present (the spec defends
against inclusive native listings). -/
def listBucket (objects : List S3Obj) (startKey : List Nat) (limit : Nat) : List S3Obj :=
  (objects.filter (fun o => lexLe startKey o.key)).take limit

/-- The error outcomes of EnumerateBlobs: the fault-injection failure, a
backend listing error, the integrity error carrying the offending basename,
and context cancellation. -/
inductive EnumErr
  | fault
  | listBucketFailed
  | integrity (file : List Nat)
  | canceled
deriving DecidableEq

/-- An observable action of EnumerateBlobs: a backend listing request, a
SizedRef delivered on the destination channel, or the closing of that
channel. -/
inductive Event
  | listCall (startKey : List Nat) (limit : Nat)
  | send (ref : List Nat) (size : Nat)
  | closeDest
deriving DecidableEq

/-- The environment of one EnumerateBlobs call: the bucket contents, the
configured namespace prefix, whether the fault-injection hook fires, whether
the backend listing call fails, and how many channel sends the consumer
accepts before its context is done (none: the context never fires). -/
structure EnumInput where
  objects : List S3Obj
  dirPrefix : List Nat
  faultFail : Bool
  listErr : Bool
  sendBudget : Option Nat
deriving DecidableEq

/-- The loop body of EnumerateBlobs over the listed objects: split each key,
skip entries outside the namespace directory, skip a basename equal to
after, fail on a basename that does not parse as an identifier, otherwise
send the SizedRef (size cast to uint32) unless the context fires first. -/
def enumLoop (pfx after : List Nat) :
    List S3Obj → Option Nat → List Event × Except EnumErr Unit
  | [], _ => ([], Except.ok ())
  | o :: rest, budget =>
      let d := (pathSplit o.key).1
      let f := (pathSplit o.key).2
      if d ≠ pfx then enumLoop pfx after rest budget
      else if f = after then enumLoop pfx after rest budget
      else if parseOk f = false then ([], Except.error (EnumErr.integrity f))
      else
        match budget with
        | some 0 => ([], Except.error EnumErr.canceled)
        | some (n + 1) =>
            let r := enumLoop pfx after rest (some n)
            (Event.send f (o.size % 4294967296) :: r.1, r.2)
        | none =>
            let r := enumLoop pfx after rest none
            (Event.send f (o.size % 4294967296) :: r.1, r.2)

/-- EnumerateBlobs from src/pkg/blobserver/s3/enumerate.go, as the trace of
its observable actions plus its error outcome.  The deferred close of the
destination channel is the trailing closeDest event appended on every exit
path; the fault-injection hook fires before any backend work; when after
parses as an identifier the listing starts at its same-length successor,
otherwise at after itself. -/
def enumerateBlobs (inp : EnumInput) (after : List Nat) (limit : Nat) :
    List Event × Except EnumErr Unit :=
  let body :=
    if inp.faultFail then (([] : List Event), Except.error EnumErr.fault)
    else
      let startAt := if parseOk after then nextStr after else after
      let ev := Event.listCall (inp.dirPrefix ++ startAt) limit
      if inp.listErr then ([ev], Except.error EnumErr.listBucketFailed)
      else
        let r := enumLoop inp.dirPrefix after
          (listBucket inp.objects (inp.dirPrefix ++ startAt) limit) inp.sendBudget
        (ev :: r.1, r.2)
  (body.1 ++ [Event.closeDest], body.2)

/-- The SizedRefs delivered on the destination channel, read off a trace. -/
def sends : List Event → List (List Nat × Nat)
  | [] => []
  | Event.send r s :: rest => (r, s) :: sends rest
  | _ :: rest => sends rest

/-- A bson document value as the index code reads it: either a string, or a
field of some other, unexpected shape (the code's type assertions only care
about this distinction). -/
inductive BVal
  | str (s : List Nat)
  | other
deriving DecidableEq

/-- A document of the keys collection: the key field (a string) and the
value field. -/
abbrev MDoc := List Nat × BVal

/-- The backing collection's contents. -/
abbrev MStore := List MDoc

/-- Modelled from the spec: the mgo driver's Remove with a key selector
(the delete-by-field call of spec section 6): it removes the single
matching document, and removing a non-existent key is a no-op success
(section 4.3).  Used by both Delete and the batch commit loop. -/
def mgoRemove (st : MStore) (k : List Nat) : MStore :=
  st.eraseP (fun e => decide (e.1 = k))

/-- mongoKeys.Delete from the source: the empty key removes every document
(RemoveAll with a nil selector, the spec's delete-all), any other key
removes the matching document. -/
def mgoDelete (st : MStore) (k : List Nat) : MStore :=
  if k = [] then [] else mgoRemove st k

/-- Replace the first document whose key field is k. -/
def replaceFirst : MStore → List Nat → BVal → MStore
  | [], _, _ => []
  | e :: rest, k, v => if e.1 = k then (k, v) :: rest else e :: replaceFirst rest k v

/-- Modelled from the spec: the mgo driver's Upsert with a key selector
(the upsert-by-field call of spec section 6): it overwrites the single
matching document, inserting the new one when none matches. -/
def mgoUpsert (st : MStore) (k : List Nat) (v : BVal) : MStore :=
  if st.any (fun e => decide (e.1 = k)) then replaceFirst st k v else st ++ [(k, v)]

/-- mongoKeys.Set from the source: an upsert storing the string value. -/
def mgoSet (st : MStore) (k v : List Nat) : MStore := mgoUpsert st k (BVal.str v)

/-- The outcome of mongoKeys.Get: a value, the ErrNotFound sentinel, or the
run-time crash of the unchecked type assertion on the value field. -/
inductive GetResult
  | ok (v : List Nat)
  | notFound
  | crash
deriving DecidableEq

/-- mongoKeys.Get from the source: find one document by key; ErrNotFound
when none matches (the mgo NotFound sentinel, modelled from spec sections 6
and 7); otherwise the unchecked type assertion res[mgoValue].(string),
which panics (crash) when the value field is not a string. -/
def mgoGet (st : MStore) (k : List Nat) : GetResult :=
  match st.find? (fun e => decide (e.1 = k)) with
  | none => GetResult.notFound
  | some e =>
      match e.2 with
      | BVal.str v => GetResult.ok v
      | BVal.other => GetResult.crash

/-- mongoStrIterator.Value from the source: the checked type assertion
returns the empty string when the value field is not a string. -/
def iterValue (v : BVal) : List Nat :=
  match v with
  | BVal.str s => s
  | BVal.other => []

/-- One token of the backend's pattern syntax: a literal byte, the
any-character dot, an alternation bar, or the start anchor. -/
inductive RTok
  | lit (c : Nat)
  | anyc
  | alt
  | anchor
deriving DecidableEq

/-- Modelled from the spec: tokenizing the backend's pattern dialect (the
spec's pattern find-by-prefix call, section 6, with pattern-special
characters per section 4.3).  We model the standard fragment the code's
escaping concerns itself with: a backslash (92) makes the next byte a
literal, a dot (46) matches any byte, a bar (124) separates alternatives,
a caret (94) anchors at the start; every other byte is a literal. -/
def rtokens : List Nat → List RTok
  | [] => []
  | 92 :: c :: rest => RTok.lit c :: rtokens rest
  | 92 :: [] => [RTok.lit 92]
  | 46 :: rest => RTok.anyc :: rtokens rest
  | 124 :: rest => RTok.alt :: rtokens rest
  | 94 :: rest => RTok.anchor :: rtokens rest
  | c :: rest => RTok.lit c :: rtokens rest

/-- Split a token list at its alternation bars into branches. -/
def splitAlt : List RTok → List (List RTok)
  | [] => [[]]
  | RTok.alt :: rest => [] :: splitAlt rest
  | t :: rest =>
      match splitAlt rest with
      | [] => [[t]]
      | b :: bs => (t :: b) :: bs

/-- Match one alternation-free branch against the string remainder s, where
pos is how many bytes of the subject precede s (the anchor succeeds only at
position zero); remaining tokens beyond the subject fail, leftover subject
bytes are allowed (an unanchored regex match of a front part). -/
def brMatchAux : List RTok → List Nat → Nat → Bool
  | [], _, _ => true
  | RTok.anchor :: ts, s, pos => decide (pos = 0) && brMatchAux ts s pos
  | RTok.lit _ :: _, [], _ => false
  | RTok.lit c :: ts, b :: bs, pos => decide (c = b) && brMatchAux ts bs (pos + 1)
  | RTok.anyc :: _, [], _ => false
  | RTok.anyc :: ts, _ :: bs, pos => brMatchAux ts bs (pos + 1)
  | RTok.alt :: _, _, _ => false

/-- Modelled from the spec: the backend's regex acceptance — the pattern
matches the subject when some alternation branch matches starting at some
position of the subject. -/
def regexMatch (pat s : List Nat) : Bool :=
  (splitAlt (rtokens pat)).any (fun ts =>
    (List.range (s.length + 1)).any (fun st => brMatchAux ts (s.drop st) st))

/-- The escaping mongoKeys.Find performs on the prefix before handing it to
the backend: strings.Replace of every bar byte (124) by backslash-bar; no
other byte is escaped. -/
def escapePipe : List Nat → List Nat
  | [] => []
  | 124 :: rest => 92 :: 124 :: escapePipe rest
  | c :: rest => c :: escapePipe rest

/-- Insert a document into a key-sorted list of documents. -/
def insertByKey (e : MDoc) : MStore → MStore
  | [] => [e]
  | x :: xs => if lexLe e.1 x.1 then e :: x :: xs else x :: insertByKey e xs

/-- The backend's ascending sort by the key field (Sort with key ascending
in the source), as an insertion sort. -/
def sortByKey : MStore → MStore
  | [] => []
  | x :: xs => insertByKey x (sortByKey xs)

/-- mongoKeys.Find from the source: escape bars in the prefix, then ask the
backend for the documents matching the anchored pattern, sorted ascending
by key. -/
def mgoFind (st : MStore) (p : List Nat) : MStore :=
  sortByKey (st.filter (fun e => regexMatch (94 :: escapePipe p) e.1))

/-- A pending batch mutation, modelled from the spec's Batch data model
(section 3): Set or Delete, accumulated in order. -/
inductive Mutation
  | set (k v : List Nat)
  | del (k : List Nat)
deriving DecidableEq

/-- One step of the CommitBatch loop, exactly the source's loop body: a
delete entry calls the driver's Remove, a set entry calls Upsert. -/
def applyMut (st : MStore) : Mutation → MStore
  | Mutation.set k v => mgoSet st k v
  | Mutation.del k => mgoRemove st k

/-- The CommitBatch loop over the accumulated mutations.  A backend failure
of one driver call (spec section 7, BackendError) is modelled by the
injected fault position failAt: the call at that position reports an error.
Returns the backend state reached and whether the loop ran to completion
(true) or stopped at the failing call (false). -/
def commitAux : MStore → List Mutation → Option Nat → MStore × Bool
  | st, [], _ => (st, true)
  | st, _ :: _, some 0 => (st, false)
  | st, m :: rest, some (n + 1) => commitAux (applyMut st m) rest (some n)
  | st, m :: rest, none => commitAux (applyMut st m) rest none

/-- The dynamic value behind the BatchMutation interface argument of
CommitBatch, modelled from the spec: either a *batch value — carrying as
ghost data the id of the store instance whose BeginBatch created it, which
the Go value itself does not record — or a value of some other
implementation of the interface. -/
inductive BatchMutation
  | batch (origin : Nat) (ms : List Mutation)
  | otherImpl
deriving DecidableEq

/-- mongoKeys.BeginBatch from the source: a fresh empty *batch, tagged here
with the creating store's id as ghost provenance. -/
def beginBatch (storeId : Nat) : BatchMutation := BatchMutation.batch storeId []

/-- The outcome CommitBatch reports: success, the invalid-batch error of the
failed type assertion, or a backend error from one driver call. -/
inductive CommitResult
  | okR
  | invalidBatch
  | backendErr
deriving DecidableEq

/-- mongoKeys.CommitBatch from the source: the type assertion bm.(*batch)
rejects exactly the arguments that are not *batch values — it cannot see
which store instance created the batch — then the loop applies the
mutations in order, stopping at the first failing call.  selfId is the
receiving store's id; the source's check never consults it. -/
def commitBatch (selfId : Nat) (st : MStore) (bm : BatchMutation)
    (failAt : Option Nat) : MStore × CommitResult :=
  match bm with
  | BatchMutation.otherImpl => (st, CommitResult.invalidBatch)
  | BatchMutation.batch _ ms =>
      let r := commitAux st ms failAt
      (r.1, if r.2 then CommitResult.okR else CommitResult.backendErr)

theorem lexLt_irrefl (a : List Nat) : lexLt a a = false := by
  induction a with
  | nil => rfl
  | cons x xs ih => simp [lexLt, ih]

theorem lexLt_asymm (a b : List Nat) (h : lexLt a b = true) : lexLt b a = false := by
  induction a generalizing b with
  | nil =>
    cases b with
    | nil => simp [lexLt] at h
    | cons y ys => rfl
  | cons x xs ih =>
    cases b with
    | nil => simp [lexLt] at h
    | cons y ys =>
      by_cases hxy : x < y
      · have : ¬ y < x := Nat.lt_asymm hxy
        simp [lexLt, this, Nat.ne_of_lt hxy, hxy]
      · by_cases hyx : y < x
        · simp [lexLt, hxy, hyx] at h
        · have hx : x = y := Nat.le_antisymm (Nat.le_of_not_lt hyx) (Nat.le_of_not_lt hxy)
          subst hx
          simp only [lexLt, if_neg hxy, if_neg hyx] at h ⊢
          exact ih ys h

theorem lexLt_connex (a b : List Nat) (h : lexLt a b = false) (hne : a ≠ b) :
    lexLt b a = true := by
  induction a generalizing b with
  | nil =>
    cases b with
    | nil => exact absurd rfl hne
    | cons y ys => simp [lexLt] at h
  | cons x xs ih =>
    cases b with
    | nil => rfl
    | cons y ys =>
      by_cases hxy : x < y
      · simp [lexLt, hxy] at h
      · by_cases hyx : y < x
        · simp [lexLt, hyx, Nat.lt_asymm hyx]
        · have hx : x = y := Nat.le_antisymm (Nat.le_of_not_lt hyx) (Nat.le_of_not_lt hxy)
          subst hx
          simp only [lexLt, if_neg hxy, if_neg hyx] at h ⊢
          exact ih ys h (fun hc => hne (by rw [hc]))

theorem lexLt_trans (a b c : List Nat) (hab : lexLt a b = true) (hbc : lexLt b c = true) :
    lexLt a c = true := by
  induction a generalizing b c with
  | nil =>
    cases c with
    | nil =>
      cases b with
      | nil => simp [lexLt] at hab
      | cons y ys => simp [lexLt] at hbc
    | cons z zs => rfl
  | cons x xs ih =>
    cases b with
    | nil => simp [lexLt] at hab
    | cons y ys =>
      cases c with
      | nil => simp [lexLt] at hbc
      | cons z zs =>
        by_cases hxy : x < y <;> by_cases hyz : y < z
        · have hxz : x < z := Nat.lt_trans hxy hyz
          simp [lexLt, hxz]
        · by_cases hzy : z < y
          · simp [lexLt, hzy, Nat.lt_asymm hzy] at hbc
          · have : y = z := Nat.le_antisymm (Nat.le_of_not_lt hzy) (Nat.le_of_not_lt hyz)
            subst this
            simp [lexLt, hxy]
        · by_cases hyx : y < x
          · simp [lexLt, hxy, hyx] at hab
          · have : x = y := Nat.le_antisymm (Nat.le_of_not_lt hyx) (Nat.le_of_not_lt hxy)
            subst this
            simp [lexLt, hyz]
        · by_cases hyx : y < x
          · simp [lexLt, hxy, hyx] at hab
          · have hx : x = y := Nat.le_antisymm (Nat.le_of_not_lt hyx) (Nat.le_of_not_lt hxy)
            subst hx
            by_cases hzx : z < x
            · simp [lexLt, hzx, Nat.lt_asymm hzx] at hbc
            · have : x = z := Nat.le_antisymm (Nat.le_of_not_lt hzx) (Nat.le_of_not_lt hyz)
              subst this
              simp only [lexLt, if_neg hyz, if_neg hzx] at hab hbc ⊢
              exact ih ys zs hab hbc

theorem lexLt_append_same (p a b : List Nat) :
    lexLt (p ++ a) (p ++ b) = lexLt a b := by
  induction p with
  | nil => rfl
  | cons x xs ih => simp [lexLt, ih]

/-- The all-255 string of length k is not lexicographically below any string
of the same length whose entries are genuine bytes. -/
theorem lexLt_rep255 (k : Nat) (w : List Nat) (hlen : w.length = k)
    (hw : ∀ x ∈ w, x < 256) : lexLt (List.replicate k 255) w = false := by
  induction k generalizing w with
  | zero =>
    have : w = [] := List.length_eq_zero.mp hlen
    subst this; rfl
  | succ n ih =>
    cases w with
    | nil => simp at hlen
    | cons x xs =>
      have hx : x < 256 := hw x (List.mem_cons_self x xs)
      have hx' : ¬ (255 < x) := by omega
      by_cases hlt : x < 255
      · simp [List.replicate_succ, lexLt, hx', hlt]
      · have hx255 : x = 255 := by omega
        subst hx255
        simp only [List.replicate_succ, lexLt, if_neg hx', if_neg hlt]
        exact ih xs (by simpa using hlen) (fun y hy => hw y (List.mem_cons_of_mem _ hy))

/-- No string of length k is lexicographically below the all-zero string of
length k. -/
theorem lexLt_rep0 (k : Nat) (w : List Nat) (hlen : w.length = k) :
    lexLt w (List.replicate k 0) = false := by
  induction k generalizing w with
  | zero => simp [List.replicate]; cases w <;> rfl
  | succ n ih =>
    cases w with
    | nil => simp at hlen
    | cons x xs =>
      by_cases hx : 0 < x
      · simp [List.replicate_succ, lexLt, hx, Nat.not_lt_zero]
      · have hx0 : x = 0 := by omega
        subst hx0
        simp only [List.replicate_succ, lexLt, if_neg (Nat.lt_irrefl 0)]
        exact ih xs (by simpa using hlen)

/-- No byte string of the right length lies strictly between
`p ++ b :: 255^k` and `p ++ (b+1) :: 0^k`. -/
theorem lexLt_between (p : List Nat) (b k : Nat) (v : List Nat)
    (h1 : lexLt (p ++ b :: List.replicate k 255) v = true)
    (h2 : lexLt v (p ++ (b + 1) :: List.replicate k 0) = true)
    (hlen : v.length = p.length + (k + 1))
    (hv : ∀ x ∈ v, x < 256) : False := by
  induction p generalizing v with
  | nil =>
    cases v with
    | nil => simp at hlen
    | cons c w =>
      have hwlen : w.length = k := by simpa using hlen
      have hwbytes : ∀ x ∈ w, x < 256 := fun y hy => hv y (List.mem_cons_of_mem _ hy)
      by_cases hbc : b < c
      · by_cases hcb1 : c < b + 1
        · omega
        · by_cases hb1c : b + 1 < c
          · simp [lexLt, hcb1, hb1c] at h2
          · have : c = b + 1 := by omega
            subst this
            simp only [List.nil_append, lexLt, if_neg hcb1, if_neg hb1c] at h2
            rw [lexLt_rep0 k w hwlen] at h2
            exact Bool.false_ne_true h2
      · by_cases hcb : c < b
        · simp [lexLt, hbc, hcb] at h1
        · have : b = c := by omega
          subst this
          simp only [List.nil_append, lexLt, if_neg hbc, if_neg hcb] at h1
          rw [lexLt_rep255 k w hwlen hwbytes] at h1
          exact Bool.false_ne_true h1
  | cons x p' ih =>
    cases v with
    | nil => simp only [List.length_nil] at hlen; omega
    | cons c w =>
      by_cases hxc : x < c
      · have hcx : ¬ c < x := Nat.lt_asymm hxc
        simp [lexLt, hcx, hxc] at h2
      · by_cases hcx : c < x
        · simp [lexLt, hxc, hcx] at h1
        · have : x = c := by omega
          subst this
          simp only [List.cons_append, lexLt, if_neg hxc, if_neg hcx] at h1 h2
          exact ih w h1 h2 (by simp only [List.length_cons] at hlen ⊢; omega)
            (fun y hy => hv y (List.mem_cons_of_mem _ hy))

theorem incBytesRev_length (r : List Nat) : (incBytesRev r).length = r.length := by
  induction r with
  | nil => rfl
  | cons b rest ih =>
    by_cases h : (b + 1) % 256 = 0 <;> simp [incBytesRev, h, ih]

theorem nextStr_length (s : List Nat) : (nextStr s).length = s.length := by
  by_cases h : s = []
  · simp [nextStr, h]
  · simp [nextStr, h, incBytesRev_length]

theorem incBytesRev_all255 (n : Nat) :
    incBytesRev (List.replicate n 255) = List.replicate n 0 := by
  induction n with
  | zero => rfl
  | succ m ih => simp [List.replicate_succ, incBytesRev, ih]

/-- Structure of the carrying increment on a byte list that is not entirely
255: the leading (reversed: trailing) run of 255s becomes zeros and the
byte that stops the carry is incremented. -/
theorem incBytesRev_decomp (r : List Nat) (hb : ∀ x ∈ r, x < 256)
    (h255 : ¬ (∀ x ∈ r, x = 255)) :
    ∃ k b t, b < 255 ∧ r = List.replicate k 255 ++ b :: t ∧
      incBytesRev r = List.replicate k 0 ++ (b + 1) :: t := by
  induction r with
  | nil => exact absurd (by intro x hx; cases hx) h255
  | cons a rest ih =>
    by_cases ha : a = 255
    · subst ha
      have hrest : ¬ (∀ x ∈ rest, x = 255) := by
        intro hall
        exact h255 (by
          intro x hx
          rcases List.mem_cons.mp hx with h | h
          · exact h
          · exact hall x h)
      obtain ⟨k, b, t, hb255, hr, hi⟩ :=
        ih (fun y hy => hb y (List.mem_cons_of_mem _ hy)) hrest
      refine ⟨k + 1, b, t, hb255, ?_, ?_⟩
      · simp [List.replicate_succ, hr]
      · simp [incBytesRev, hi, List.replicate_succ]
    · have halt : a < 256 := hb a (List.mem_cons_self a rest)
      have ha' : a < 255 := by omega
      refine ⟨0, a, rest, ha', by simp, ?_⟩
      have hmod : (a + 1) % 256 = a + 1 := Nat.mod_eq_of_lt (by omega)
      have hne0 : ¬ (a + 1 = 0) := by omega
      simp [incBytesRev, hmod, hne0]

/-- Structure of `nextStr` on a non-all-255 string: the trailing run of 255s
becomes zeros and the byte before it is incremented. -/
theorem nextStr_decomp (s : List Nat) (hb : ∀ x ∈ s, x < 256)
    (h255 : ¬ (∀ x ∈ s, x = 255)) :
    ∃ p b k, b < 255 ∧ s = p ++ b :: List.replicate k 255 ∧
      nextStr s = p ++ (b + 1) :: List.replicate k 0 := by
  have hne : s ≠ [] := by
    intro h
    subst h
    exact h255 (by intro x hx; cases hx)
  have hbrev : ∀ x ∈ s.reverse, x < 256 := by
    intro x hx; exact hb x (List.mem_reverse.mp hx)
  have h255rev : ¬ (∀ x ∈ s.reverse, x = 255) := by
    intro hall
    exact h255 (fun x hx => hall x (List.mem_reverse.mpr hx))
  obtain ⟨k, b, t, hb255, hr, hi⟩ := incBytesRev_decomp s.reverse hbrev h255rev
  refine ⟨t.reverse, b, k, hb255, ?_, ?_⟩
  · have : s = (s.reverse).reverse := (List.reverse_reverse s).symm
    rw [this, hr]
    simp [List.reverse_append, List.reverse_replicate]
  · rw [nextStr, if_neg hne, hi]
    simp [List.reverse_append, List.reverse_replicate]

/-- On a string that is not entirely 255s, `nextStr` is strictly greater. -/
theorem nextStr_gt (s : List Nat) (hb : ∀ x ∈ s, x < 256)
    (h255 : ¬ (∀ x ∈ s, x = 255)) : lexLt s (nextStr s) = true := by
  obtain ⟨p, b, k, _, hs, hn⟩ := nextStr_decomp s hb h255
  rw [hn, hs, lexLt_append_same]
  simp [lexLt]

/-- On a string made entirely of 255 bytes, `nextStr` returns the all-zero
string of the same length (the carry runs off the front). -/
theorem nextStr_all255 (s : List Nat) (h255 : ∀ x ∈ s, x = 255) :
    nextStr s = List.replicate s.length 0 := by
  by_cases hne : s = []
  · subst hne; rfl
  · have : s.reverse = List.replicate s.length 255 := by
      rw [List.eq_replicate_iff]
      constructor
      · simp
      · intro x hx; exact h255 x (List.mem_reverse.mp hx)
    rw [nextStr, if_neg hne, this, incBytesRev_all255, List.reverse_replicate]

/-- C1 (amended): for every byte string s, `nextStr s` has the same length
as s and is strictly greater lexicographically, except when s consists
entirely of the maximum byte value 0xFF, in which case the result is the
all-zero string of the same length (the empty string comes back unchanged),
not the input itself. -/
theorem C1_nextStr_same_length_successor (s : List Nat) (hb : ∀ x ∈ s, x < 256) :
    (nextStr s).length = s.length ∧
    (¬ (∀ x ∈ s, x = 255) → lexLt s (nextStr s) = true) ∧
    ((∀ x ∈ s, x = 255) → nextStr s = List.replicate s.length 0) :=
  ⟨nextStr_length s, nextStr_gt s hb, nextStr_all255 s⟩

/-- C1 witness: on the concrete string [0, 255] the successor [1, 0] is
strictly greater with the same length, and on the all-255 string [255, 255]
the code produces [0, 0]. -/
theorem C1_nextStr_witness :
    (nextStr [0, 255]).length = [0, 255].length ∧
    lexLt [0, 255] (nextStr [0, 255]) = true ∧
    nextStr [255, 255] = List.replicate 2 0 :=
  ⟨(C1_nextStr_same_length_successor [0, 255] (by decide)).1,
   (C1_nextStr_same_length_successor [0, 255] (by decide)).2.1 (by decide),
   (C1_nextStr_same_length_successor [255, 255] (by decide)).2.2 (by decide)⟩

/-- C1 counterexample: on the all-0xFF string [255] the code returns the
all-zero string [0], which is neither the input unchanged nor greater. -/
theorem C1_nextStr_all255_not_unchanged :
    nextStr [255] = [0] ∧ nextStr [255] ≠ [255] ∧
    lexLt [255] (nextStr [255]) = false := by decide

theorem find?_replaceFirst (st : MStore) (k : List Nat) (v : BVal)
    (h : st.any (fun e => decide (e.1 = k)) = true) :
    (replaceFirst st k v).find? (fun e => decide (e.1 = k)) = some (k, v) := by
  induction st with
  | nil => simp at h
  | cons e rest ih =>
    by_cases he : e.1 = k
    · have : replaceFirst (e :: rest) k v = (k, v) :: rest := by
        simp [replaceFirst, he]
      rw [this, List.find?_cons_of_pos _ (by simp)]
    · have hrw : replaceFirst (e :: rest) k v = e :: replaceFirst rest k v := by
        simp [replaceFirst, he]
      have h' : rest.any (fun e => decide (e.1 = k)) = true := by
        simp only [List.any_cons, he, decide_False, Bool.false_or] at h
        exact h
      rw [hrw, List.find?_cons_of_neg _ (by simp [he])]
      exact ih h'

/-- Set then Get: the value just upserted is the one Get finds. -/
theorem mgoGet_set (st : MStore) (k v : List Nat) :
    mgoGet (mgoSet st k v) k = GetResult.ok v := by
  by_cases h : st.any (fun e => decide (e.1 = k)) = true
  · have hf := find?_replaceFirst st k (BVal.str v) h
    simp [mgoSet, mgoUpsert, h, mgoGet, hf]
  · have hf : st.find? (fun e => decide (e.1 = k)) = none := by
      rw [List.find?_eq_none]
      intro x hx hx2
      exact h (List.any_eq_true.mpr ⟨x, hx, hx2⟩)
    have hone : List.find? (fun e => decide (e.1 = k)) [((k : List Nat), BVal.str v)] =
        some (k, BVal.str v) := List.find?_cons_of_pos _ (by simp)
    simp [mgoSet, mgoUpsert, h, mgoGet, List.find?_append, hf, hone]

theorem find?_mgoRemove (st : MStore) (k : List Nat)
    (hk : st.Pairwise (fun a b => a.1 ≠ b.1)) :
    (mgoRemove st k).find? (fun e => decide (e.1 = k)) = none := by
  induction st with
  | nil => rfl
  | cons e rest ih =>
    rcases List.pairwise_cons.mp hk with ⟨hhead, htail⟩
    by_cases he : e.1 = k
    · have hrw : mgoRemove (e :: rest) k = rest := by
        simp [mgoRemove, List.eraseP_cons, he]
      rw [hrw, List.find?_eq_none]
      intro x hx hxk
      have : x.1 = k := of_decide_eq_true hxk
      exact (hhead x hx) (by rw [he, this])
    · have hrw : mgoRemove (e :: rest) k = e :: mgoRemove rest k := by
        simp [mgoRemove, List.eraseP_cons, he]
      rw [hrw, List.find?_cons_of_neg _ (by simp [he])]
      exact ih htail

/-- Delete then Get: the key is gone. -/
theorem mgoGet_delete (st : MStore) (k : List Nat)
    (hk : st.Pairwise (fun a b => a.1 ≠ b.1)) :
    mgoGet (mgoDelete st k) k = GetResult.notFound := by
  by_cases hke : k = []
  · subst hke
    simp [mgoDelete, mgoGet]
  · simp [mgoDelete, hke, mgoGet, find?_mgoRemove st k hk]

theorem mem_mgoRemove (st : MStore) (k : List Nat) (e : MDoc)
    (hk : st.Pairwise (fun a b => a.1 ≠ b.1)) :
    e ∈ mgoRemove st k ↔ e ∈ st ∧ e.1 ≠ k := by
  induction st with
  | nil => simp [mgoRemove]
  | cons x rest ih =>
    rcases List.pairwise_cons.mp hk with ⟨hhead, htail⟩
    by_cases hx : x.1 = k
    · have hrw : mgoRemove (x :: rest) k = rest := by
        simp [mgoRemove, List.eraseP_cons, hx]
      rw [hrw]
      constructor
      · intro hmem
        refine ⟨List.mem_cons_of_mem _ hmem, ?_⟩
        intro hek
        exact (hhead e hmem) (by rw [hx, hek])
      · rintro ⟨hmem, hek⟩
        rcases List.mem_cons.mp hmem with h | h
        · exact absurd (by rw [h]; exact hx) hek
        · exact h
    · have hrw : mgoRemove (x :: rest) k = x :: mgoRemove rest k := by
        simp [mgoRemove, List.eraseP_cons, hx]
      rw [hrw]
      constructor
      · intro hmem
        rcases List.mem_cons.mp hmem with h | h
        · subst h
          exact ⟨List.mem_cons_self _ _, hx⟩
        · rcases (ih htail).mp h with ⟨h1, h2⟩
          exact ⟨List.mem_cons_of_mem _ h1, h2⟩
      · rintro ⟨hmem, hek⟩
        rcases List.mem_cons.mp hmem with h | h
        · subst h
          exact List.mem_cons_self _ _
        · exact List.mem_cons_of_mem _ ((ih htail).mpr ⟨h, hek⟩)

/-- C3: deleting a key that has no entry is a no-op success; Delete of the
empty key wipes the collection; Delete of a non-empty key removes exactly
the matching entry and nothing else. -/
theorem C3_delete_missing_noop (st : MStore) (k : List Nat)
    (hk : st.Pairwise (fun a b => a.1 ≠ b.1)) :
    (k ≠ [] → (∀ e ∈ st, e.1 ≠ k) → mgoDelete st k = st) ∧
    mgoDelete st [] = [] ∧
    (k ≠ [] → ∀ e : MDoc, e ∈ mgoDelete st k ↔ e ∈ st ∧ e.1 ≠ k) := by
  refine ⟨?_, by simp [mgoDelete], ?_⟩
  · intro hke hnone
    rw [mgoDelete, if_neg hke, mgoRemove, List.eraseP_of_forall_not]
    intro a ha
    simp [hnone a ha]
  · intro hke e
    rw [mgoDelete, if_neg hke]
    exact mem_mgoRemove st k e hk

/-- C3 witness: deleting the absent key [98] leaves a one-entry store
untouched, and deleting the empty key wipes it. -/
theorem C3_delete_witness :
    mgoDelete [([97], BVal.str [118])] [98] = [([97], BVal.str [118])] ∧
    mgoDelete [([97], BVal.str [118])] [] = [] := by
  have h := C3_delete_missing_noop [([97], BVal.str [118])] [98] (by simp)
  exact ⟨h.1 (by decide) (by decide), h.2.1⟩

/-- C7: Set then Get returns the value just written; Delete then Get fails
with NotFound; Delete of the empty key followed by Find of the empty prefix
yields no entries. -/
theorem C7_set_get_delete_find (st : MStore) (k v : List Nat)
    (hk : st.Pairwise (fun a b => a.1 ≠ b.1)) :
    mgoGet (mgoSet st k v) k = GetResult.ok v ∧
    mgoGet (mgoDelete st k) k = GetResult.notFound ∧
    mgoFind (mgoDelete st []) [] = [] := by
  refine ⟨mgoGet_set st k v, mgoGet_delete st k hk, ?_⟩
  have hw : mgoDelete st [] = [] := by simp [mgoDelete]
  rw [hw]
  rfl

/-- C7 witness: the three laws at a concrete one-entry store. -/
theorem C7_set_get_delete_find_witness :
    mgoGet (mgoSet [([97], BVal.str [118])] [97] [119]) [97] = GetResult.ok [119] ∧
    mgoGet (mgoDelete [([97], BVal.str [118])] [97]) [97] = GetResult.notFound ∧
    mgoFind (mgoDelete [([97], BVal.str [118])] []) [] = [] :=
  C7_set_get_delete_find [([97], BVal.str [118])] [97] [119] (by simp)

/-- C10: when the document found for Get has a non-string value field, the
unchecked type assertion makes Get crash, while the iterator's Value reads
the same shape of field as the empty string. -/
theorem C10_get_crashes_on_nonstring (st : MStore) (k : List Nat) (e : MDoc)
    (hfind : st.find? (fun x => decide (x.1 = k)) = some e)
    (hother : e.2 = BVal.other) :
    mgoGet st k = GetResult.crash ∧ iterValue e.2 = [] := by
  obtain ⟨e1, e2⟩ := e
  cases e2 with
  | str s => simp at hother
  | other =>
    constructor
    · simp [mgoGet, hfind]
    · rfl

/-- C10 witness: a store holding one document with a non-string value. -/
theorem C10_get_crashes_witness :
    mgoGet [([97], BVal.other)] [97] = GetResult.crash ∧
    iterValue BVal.other = [] := by
  have h := C10_get_crashes_on_nonstring [([97], BVal.other)] [97]
    ([97], BVal.other) (by decide) rfl
  exact ⟨h.1, h.2⟩

theorem commitAux_none (st : MStore) (ms : List Mutation) :
    commitAux st ms none = (ms.foldl applyMut st, true) := by
  induction ms generalizing st with
  | nil => rfl
  | cons m rest ih => simp [commitAux, List.foldl_cons, ih]

theorem commitAux_fail (st : MStore) (ms : List Mutation) (i : Nat)
    (hi : i < ms.length) :
    commitAux st ms (some i) = ((ms.take i).foldl applyMut st, false) := by
  induction ms generalizing st i with
  | nil => simp at hi
  | cons m rest ih =>
    cases i with
    | zero => simp [commitAux]
    | succ n =>
      have hn : n < rest.length := by
        simp only [List.length_cons] at hi
        omega
      simp [commitAux, ih (applyMut st m) n hn]

/-- C5: CommitBatch applies the accumulated mutations in order (the final
state is the left fold of the mutation list); when the backend call at
position i fails, the commit stops there, reports failure and keeps the
first i mutations applied with no rollback; and committing
[Set k v1, Delete k, Set k v2] leaves k mapped to v2. -/
theorem C5_commit_in_order_stop_no_rollback (st : MStore) (ms : List Mutation)
    (i : Nat) (k v1 v2 : List Nat) (hi : i < ms.length) :
    commitAux st ms none = (ms.foldl applyMut st, true) ∧
    commitAux st ms (some i) = ((ms.take i).foldl applyMut st, false) ∧
    mgoGet (commitAux st
      [Mutation.set k v1, Mutation.del k, Mutation.set k v2] none).1 k
      = GetResult.ok v2 := by
  refine ⟨commitAux_none st ms, commitAux_fail st ms i hi, ?_⟩
  rw [commitAux_none]
  exact mgoGet_set _ k v2

/-- C5 witness: a one-mutation batch with a fault at position zero, and the
set-delete-set batch on the empty store ends with the key at v2. -/
theorem C5_commit_witness :
    commitAux [] [Mutation.del [97]] (some 0) = ([], false) ∧
    mgoGet (commitAux []
      [Mutation.set [97] [1], Mutation.del [97], Mutation.set [97] [2]] none).1 [97]
      = GetResult.ok [2] := by
  have h := C5_commit_in_order_stop_no_rollback [] [Mutation.del [97]] 0 [97] [1] [2]
    (by decide)
  exact ⟨h.2.1, h.2.2⟩

/-- C6 (amended): CommitBatch reports the invalid-batch error exactly when
the argument is not a *batch value at all; the type assertion cannot see
which store instance's BeginBatch produced a *batch, so a batch from a
different store instance is accepted, not rejected. -/
theorem C6_commitBatch_rejects_only_wrong_type (selfId : Nat) (st : MStore)
    (bm : BatchMutation) (failAt : Option Nat) :
    ((commitBatch selfId st bm failAt).2 = CommitResult.invalidBatch ↔
      bm = BatchMutation.otherImpl) ∧
    (∀ origin : Nat, (commitBatch selfId st (beginBatch origin) failAt).2 ≠
      CommitResult.invalidBatch) := by
  constructor
  · cases bm with
    | otherImpl => simp [commitBatch]
    | batch o ms =>
      simp only [commitBatch]
      cases h : (commitAux st ms failAt).2 <;> simp
  · intro origin
    simp only [beginBatch, commitBatch, commitAux]
    simp

/-- C6 counterexample: store 0 commits the batch created by store 1's
BeginBatch; the claim demands an InvalidBatch rejection, but the commit
succeeds. -/
theorem C6_cross_store_batch_accepted :
    (commitBatch 0 [] (beginBatch 1) none).2 = CommitResult.okR ∧
    (1 : Nat) ≠ 0 := by decide

/-- C4: the source escapes only the bar byte before handing the prefix to
the backend's pattern matcher (its own comment records the unfinished
escaping), so a pattern-special dot in the prefix is interpreted, not
matched literally: Find with the one-byte prefix of a dot on a store
holding the key of one letter a returns that entry, although that key does
not start with a dot byte. -/
theorem C4_find_dot_prefix_not_literal :
    mgoFind [([97], BVal.str [118])] [46] = [([97], BVal.str [118])] ∧
    List.isPrefixOf [46] [97] = false := by decide

theorem pathSplit_append (p : List Nat) :
    (pathSplit p).1 ++ (pathSplit p).2 = p := by
  induction p with
  | nil => rfl
  | cons b rest ih =>
    by_cases h1 : (pathSplit rest).1 = []
    · have ih' : (pathSplit rest).2 = rest := by
        rw [h1] at ih
        simpa using ih
      by_cases h2 : b = 47
      · simp [pathSplit, h1, h2, ih']
      · simp [pathSplit, h1, h2, ih']
    · simp [pathSplit, h1, ih]

theorem parseOk_length (s : List Nat) (h : parseOk s = true) : s.length = 45 := by
  simp only [parseOk, Bool.and_eq_true, decide_eq_true_eq] at h
  exact h.1.1

theorem isHexDigit_lt (b : Nat) (h : isHexDigit b = true) : b < 256 := by
  simp only [isHexDigit, Bool.or_eq_true, Bool.and_eq_true, decide_eq_true_eq] at h
  omega

theorem parseOk_bytes (s : List Nat) (h : parseOk s = true) : ∀ x ∈ s, x < 256 := by
  simp only [parseOk, Bool.and_eq_true, decide_eq_true_eq, List.all_eq_true] at h
  obtain ⟨⟨_, htake⟩, hall⟩ := h
  intro x hx
  rw [← List.take_append_drop 5 s] at hx
  rcases List.mem_append.mp hx with hx | hx
  · rw [htake] at hx
    simp only [sha1Pfx, List.mem_cons, List.not_mem_nil, or_false] at hx
    omega
  · exact isHexDigit_lt x (hall x hx)

theorem parseOk_not_all255 (s : List Nat) (h : parseOk s = true) :
    ¬ (∀ x ∈ s, x = 255) := by
  intro hall
  simp only [parseOk, Bool.and_eq_true, decide_eq_true_eq] at h
  obtain ⟨⟨hlen, htake⟩, _⟩ := h
  have h115 : (115 : Nat) ∈ s.take 5 := by rw [htake]; simp [sha1Pfx]
  have := hall 115 (List.mem_of_mem_take h115)
  omega

theorem lexLe_append_same (p a b : List Nat) :
    lexLe (p ++ a) (p ++ b) = lexLe a b := by
  simp [lexLe, lexLt_append_same]

/-- No valid identifier strictly greater than a valid identifier lies below
that identifier's same-length successor: for same-length byte strings the
strict interval between a string and its successor holds no string at all
of that length. -/
theorem parseOk_ge_nextStr (after f : List Nat) (ha : parseOk after = true)
    (hf : parseOk f = true) (hlt : lexLt after f = true) :
    lexLt f (nextStr after) = false := by
  cases hcon : lexLt f (nextStr after) with
  | false => rfl
  | true =>
    exfalso
    obtain ⟨p, b, k, _, hs, hn⟩ := nextStr_decomp after
      (parseOk_bytes after ha) (parseOk_not_all255 after ha)
    have hlena : after.length = 45 := parseOk_length after ha
    have hlenf : f.length = 45 := parseOk_length f hf
    have hplen : p.length + (k + 1) = 45 := by
      rw [hs] at hlena
      simpa using hlena
    refine lexLt_between p b k f ?_ ?_ ?_ (parseOk_bytes f hf)
    · rw [← hs]; exact hlt
    · rw [← hn]; exact hcon
    · omega

theorem listBucket_all (objects : List S3Obj) (startKey : List Nat) (limit : Nat)
    (hlimit : objects.length ≤ limit) :
    listBucket objects startKey limit =
      objects.filter (fun o => lexLe startKey o.key) := by
  rw [listBucket]
  exact List.take_of_length_le (le_trans (List.length_filter_le _ _) hlimit)

theorem sends_append (a b : List Event) : sends (a ++ b) = sends a ++ sends b := by
  induction a with
  | nil => rfl
  | cons e rest ih => cases e <;> simp [sends, ih]

theorem sends_map_send (l : List S3Obj) (g : S3Obj → List Nat) (h : S3Obj → Nat) :
    sends (l.map (fun o => Event.send (g o) (h o))) = l.map (fun o => (g o, h o)) := by
  induction l with
  | nil => rfl
  | cons o rest ih => simp [sends, ih]

/-- With no cancellation and every namespace basename other than after
parsing, the loop emits one send per surviving object and succeeds. -/
theorem enumLoop_ok (pfx after : List Nat) (objs : List S3Obj)
    (hparse : ∀ o ∈ objs, (pathSplit o.key).1 = pfx → (pathSplit o.key).2 ≠ after →
      parseOk (pathSplit o.key).2 = true) :
    enumLoop pfx after objs none =
      ((objs.filter (fun o => decide ((pathSplit o.key).1 = pfx) &&
        !decide ((pathSplit o.key).2 = after))).map
        (fun o => Event.send (pathSplit o.key).2 (o.size % 4294967296)),
       Except.ok ()) := by
  induction objs with
  | nil => rfl
  | cons o rest ih =>
    have ih' := ih (fun x hx => hparse x (List.mem_cons_of_mem _ hx))
    by_cases hd : (pathSplit o.key).1 = pfx
    · by_cases hf : (pathSplit o.key).2 = after
      · simp [enumLoop, hd, hf, List.filter_cons, ih']
      · have hp : parseOk (pathSplit o.key).2 = true :=
          hparse o (List.mem_cons_self o rest) hd hf
        simp [enumLoop, hd, hf, hp, List.filter_cons, ih']
    · simp [enumLoop, hd, List.filter_cons, ih']

/-- The one object-level equivalence behind C2: surviving the listing cutoff
and the loop's two skips is the same as being a namespace entry whose valid
basename is strictly greater than after. -/
theorem enum_filter_pointwise (pfx after : List Nat) (o : S3Obj)
    (hparse : (pathSplit o.key).1 = pfx → (pathSplit o.key).2 ≠ after →
      parseOk (pathSplit o.key).2 = true) :
    ((decide ((pathSplit o.key).1 = pfx) && !decide ((pathSplit o.key).2 = after)) &&
      lexLe (pfx ++ (if parseOk after then nextStr after else after)) o.key) =
    (decide ((pathSplit o.key).1 = pfx) && parseOk (pathSplit o.key).2 &&
      lexLt after (pathSplit o.key).2) := by
  have hps := pathSplit_append o.key
  by_cases hd : (pathSplit o.key).1 = pfx
  · rw [hd] at hps
    by_cases hf : (pathSplit o.key).2 = after
    · simp [hd, hf, lexLt_irrefl]
    · have hp := hparse hd hf
      simp only [hd, decide_True, Bool.true_and]
      generalize hgen : (pathSplit o.key).2 = f at hp hf hps ⊢
      rw [← hps, lexLe_append_same, hp, Bool.true_and]
      have hdf : decide (f = after) = false := by simp [hf]
      rw [hdf, Bool.not_false, Bool.true_and]
      by_cases hpa : parseOk after = true
      · rw [if_pos hpa]
        cases hc : lexLt after f with
        | true =>
          have hge := parseOk_ge_nextStr after f hpa hp hc
          simp [lexLe, hge]
        | false =>
          have h1 : lexLt f after = true :=
            lexLt_connex after f hc (fun h => hf h.symm)
          have h2 : lexLt after (nextStr after) = true :=
            nextStr_gt after (parseOk_bytes after hpa) (parseOk_not_all255 after hpa)
          have h3 : lexLt f (nextStr after) = true := lexLt_trans f after _ h1 h2
          simp [lexLe, h3]
      · rw [if_neg hpa]
        cases hc : lexLt after f with
        | true => simp [lexLe, lexLt_asymm after f hc]
        | false =>
          have h1 : lexLt f after = true :=
            lexLt_connex after f hc (fun h => hf h.symm)
          simp [lexLe, h1]
  · simp [hd]

/-- C2: over a lexicographically ordered backend holding at most limit
objects, with every namespace basename other than after a valid identifier,
EnumerateBlobs succeeds and delivers exactly the SizedRefs of the objects
whose directory equals the configured namespace prefix and whose basename
is a valid identifier strictly greater than after, in ascending order of
the identifier's canonical string; entries outside the namespace are never
delivered even when adjacent in the raw listing. -/
theorem C2_enumerate_exactly_after (inp : EnumInput) (after : List Nat) (limit : Nat)
    (hfault : inp.faultFail = false) (hlerr : inp.listErr = false)
    (hbudget : inp.sendBudget = none)
    (hsorted : inp.objects.Pairwise (fun a b => lexLt a.key b.key = true))
    (hlimit : inp.objects.length ≤ limit)
    (hparse : ∀ o ∈ inp.objects, (pathSplit o.key).1 = inp.dirPrefix →
      (pathSplit o.key).2 ≠ after → parseOk (pathSplit o.key).2 = true) :
    (enumerateBlobs inp after limit).2 = Except.ok () ∧
    sends (enumerateBlobs inp after limit).1 =
      (inp.objects.filter (fun o => decide ((pathSplit o.key).1 = inp.dirPrefix) &&
        parseOk (pathSplit o.key).2 && lexLt after (pathSplit o.key).2)).map
        (fun o => ((pathSplit o.key).2, o.size % 4294967296)) ∧
    (sends (enumerateBlobs inp after limit).1).Pairwise
      (fun a b => lexLt a.1 b.1 = true) := by
  have hlist : listBucket inp.objects
      (inp.dirPrefix ++ (if parseOk after then nextStr after else after)) limit =
      inp.objects.filter (fun o =>
        lexLe (inp.dirPrefix ++ (if parseOk after then nextStr after else after)) o.key) :=
    listBucket_all _ _ _ hlimit
  have hloop := enumLoop_ok inp.dirPrefix after
    (listBucket inp.objects
      (inp.dirPrefix ++ (if parseOk after then nextStr after else after)) limit)
    (by
      intro o ho
      rw [hlist] at ho
      exact hparse o (List.mem_of_mem_filter ho))
  have hred : enumerateBlobs inp after limit =
      ((Event.listCall
          (inp.dirPrefix ++ (if parseOk after then nextStr after else after)) limit ::
        (enumLoop inp.dirPrefix after
          (listBucket inp.objects
            (inp.dirPrefix ++ (if parseOk after then nextStr after else after)) limit)
          none).1) ++ [Event.closeDest],
       (enumLoop inp.dirPrefix after
          (listBucket inp.objects
            (inp.dirPrefix ++ (if parseOk after then nextStr after else after)) limit)
          none).2) := by
    simp [enumerateBlobs, hfault, hlerr, hbudget]
  have hfilters : (listBucket inp.objects
        (inp.dirPrefix ++ (if parseOk after then nextStr after else after)) limit).filter
        (fun o => decide ((pathSplit o.key).1 = inp.dirPrefix) &&
          !decide ((pathSplit o.key).2 = after)) =
      inp.objects.filter (fun o => decide ((pathSplit o.key).1 = inp.dirPrefix) &&
        parseOk (pathSplit o.key).2 && lexLt after (pathSplit o.key).2) := by
    rw [hlist, List.filter_filter]
    exact List.filter_congr (fun o ho => enum_filter_pointwise inp.dirPrefix after o
      (hparse o ho))
  have htrace : (enumLoop inp.dirPrefix after
      (listBucket inp.objects
        (inp.dirPrefix ++ (if parseOk after then nextStr after else after)) limit)
      none).1 =
      (inp.objects.filter (fun o => decide ((pathSplit o.key).1 = inp.dirPrefix) &&
        parseOk (pathSplit o.key).2 && lexLt after (pathSplit o.key).2)).map
        (fun o => Event.send (pathSplit o.key).2 (o.size % 4294967296)) := by
    rw [hloop]
    simpa using congrArg
      (List.map (fun o => Event.send (pathSplit o.key).2 (o.size % 4294967296))) hfilters
  have hsends : sends (enumerateBlobs inp after limit).1 =
      (inp.objects.filter (fun o => decide ((pathSplit o.key).1 = inp.dirPrefix) &&
        parseOk (pathSplit o.key).2 && lexLt after (pathSplit o.key).2)).map
        (fun o => ((pathSplit o.key).2, o.size % 4294967296)) := by
    rw [hred, sends_append]
    rw [show sends [Event.closeDest] = [] from rfl, List.append_nil]
    rw [show ∀ X : List Event, sends (Event.listCall
      (inp.dirPrefix ++ (if parseOk after then nextStr after else after)) limit :: X) =
      sends X from fun X => rfl]
    rw [htrace, sends_map_send]
  refine ⟨?_, hsends, ?_⟩
  · rw [hred]
    simp only []
    rw [hloop]
  · rw [hsends, List.pairwise_map]
    refine List.Pairwise.imp_of_mem ?_ (hsorted.filter _)
    intro a b ha hb hab
    have hda : (pathSplit a.key).1 = inp.dirPrefix := by
      have := (List.mem_filter.mp ha).2
      simp only [Bool.and_eq_true, decide_eq_true_eq] at this
      exact this.1.1
    have hdb : (pathSplit b.key).1 = inp.dirPrefix := by
      have := (List.mem_filter.mp hb).2
      simp only [Bool.and_eq_true, decide_eq_true_eq] at this
      exact this.1.1
    have hka := pathSplit_append a.key
    have hkb := pathSplit_append b.key
    rw [hda] at hka
    rw [hdb] at hkb
    rw [← hka, ← hkb, lexLt_append_same] at hab
    exact hab

/-- C2 witness: namespace p/ holds two identifiers and a foreign q/ entry
is adjacent in the listing; enumerating from the empty marker succeeds and
yields exactly the two namespace identifiers in ascending order. -/
theorem C2_enumerate_witness :
    (enumerateBlobs
      ⟨[⟨[112, 47] ++ (sha1Pfx ++ List.replicate 40 48), 10⟩,
        ⟨[112, 47] ++ (sha1Pfx ++ (List.replicate 39 48 ++ [49])), 20⟩,
        ⟨[113, 47] ++ (sha1Pfx ++ List.replicate 40 48), 30⟩],
       [112, 47], false, false, none⟩ [] 3).2 = Except.ok () ∧
    sends (enumerateBlobs
      ⟨[⟨[112, 47] ++ (sha1Pfx ++ List.replicate 40 48), 10⟩,
        ⟨[112, 47] ++ (sha1Pfx ++ (List.replicate 39 48 ++ [49])), 20⟩,
        ⟨[113, 47] ++ (sha1Pfx ++ List.replicate 40 48), 30⟩],
       [112, 47], false, false, none⟩ [] 3).1 =
      [(sha1Pfx ++ List.replicate 40 48, 10),
       (sha1Pfx ++ (List.replicate 39 48 ++ [49]), 20)] := by
  have h := C2_enumerate_exactly_after
    ⟨[⟨[112, 47] ++ (sha1Pfx ++ List.replicate 40 48), 10⟩,
      ⟨[112, 47] ++ (sha1Pfx ++ (List.replicate 39 48 ++ [49])), 20⟩,
      ⟨[113, 47] ++ (sha1Pfx ++ List.replicate 40 48), 30⟩],
     [112, 47], false, false, none⟩ [] 3 rfl rfl rfl (by decide) (by decide) (by decide)
  refine ⟨h.1, ?_⟩
  rw [h.2.1]
  decide

/-- When the loop meets an in-namespace basename other than after that does
not parse, the loop's outcome is an integrity error naming such a basename. -/
theorem enumLoop_integrity (pfx after : List Nat) (objs : List S3Obj)
    (hbad : ∃ o ∈ objs, (pathSplit o.key).1 = pfx ∧ (pathSplit o.key).2 ≠ after ∧
      parseOk (pathSplit o.key).2 = false) :
    ∃ f, (enumLoop pfx after objs none).2 = Except.error (EnumErr.integrity f) ∧
      parseOk f = false ∧ f ≠ after ∧
      ∃ o ∈ objs, (pathSplit o.key).1 = pfx ∧ (pathSplit o.key).2 = f := by
  induction objs with
  | nil =>
    obtain ⟨o, ho, _⟩ := hbad
    cases ho
  | cons o rest ih =>
    by_cases hd : (pathSplit o.key).1 = pfx
    · by_cases hf : (pathSplit o.key).2 = after
      · have hbad' : ∃ x ∈ rest, (pathSplit x.key).1 = pfx ∧
            (pathSplit x.key).2 ≠ after ∧ parseOk (pathSplit x.key).2 = false := by
          obtain ⟨x, hx, h1, h2, h3⟩ := hbad
          rcases List.mem_cons.mp hx with h | h
          · subst h
            exact absurd hf h2
          · exact ⟨x, h, h1, h2, h3⟩
        obtain ⟨f, e1, e2, e3, x, hx, g1, g2⟩ := ih hbad'
        refine ⟨f, ?_, e2, e3, x, List.mem_cons_of_mem _ hx, g1, g2⟩
        rw [show enumLoop pfx after (o :: rest) none = enumLoop pfx after rest none from
          by simp [enumLoop, hd, hf]]
        exact e1
      · by_cases hp : parseOk (pathSplit o.key).2 = false
        · refine ⟨(pathSplit o.key).2, ?_, hp, hf, o, List.mem_cons_self o rest, hd, rfl⟩
          simp [enumLoop, hd, hf, hp]
        · have hpt : parseOk (pathSplit o.key).2 = true := by
            cases hq : parseOk (pathSplit o.key).2
            · exact absurd hq hp
            · rfl
          have hbad' : ∃ x ∈ rest, (pathSplit x.key).1 = pfx ∧
              (pathSplit x.key).2 ≠ after ∧ parseOk (pathSplit x.key).2 = false := by
            obtain ⟨x, hx, h1, h2, h3⟩ := hbad
            rcases List.mem_cons.mp hx with h | h
            · subst h
              rw [hpt] at h3
              exact absurd h3 (by simp)
            · exact ⟨x, h, h1, h2, h3⟩
          obtain ⟨f, e1, e2, e3, x, hx, g1, g2⟩ := ih hbad'
          refine ⟨f, ?_, e2, e3, x, List.mem_cons_of_mem _ hx, g1, g2⟩
          have hstep : (enumLoop pfx after (o :: rest) none).2 =
              (enumLoop pfx after rest none).2 := by
            simp [enumLoop, hd, hf, hpt]
          rw [hstep]
          exact e1
    · have hbad' : ∃ x ∈ rest, (pathSplit x.key).1 = pfx ∧
          (pathSplit x.key).2 ≠ after ∧ parseOk (pathSplit x.key).2 = false := by
        obtain ⟨x, hx, h1, h2, h3⟩ := hbad
        rcases List.mem_cons.mp hx with h | h
        · subst h
          exact absurd h1 hd
        · exact ⟨x, h, h1, h2, h3⟩
      obtain ⟨f, e1, e2, e3, x, hx, g1, g2⟩ := ih hbad'
      refine ⟨f, ?_, e2, e3, x, List.mem_cons_of_mem _ hx, g1, g2⟩
      rw [show enumLoop pfx after (o :: rest) none = enumLoop pfx after rest none from
        by simp [enumLoop, hd]]
      exact e1

/-- C8: when the backend listing holds an object inside the namespace whose
basename differs from after and fails identifier parsing, the whole call
fails with the integrity error naming such a basename rather than silently
skipping it, and that error differs from the backend listing error. -/
theorem C8_integrity_error_fatal (inp : EnumInput) (after : List Nat) (limit : Nat)
    (hfault : inp.faultFail = false) (hlerr : inp.listErr = false)
    (hbudget : inp.sendBudget = none)
    (hbad : ∃ o ∈ listBucket inp.objects
        (inp.dirPrefix ++ (if parseOk after then nextStr after else after)) limit,
      (pathSplit o.key).1 = inp.dirPrefix ∧ (pathSplit o.key).2 ≠ after ∧
      parseOk (pathSplit o.key).2 = false) :
    ∃ f, (enumerateBlobs inp after limit).2 = Except.error (EnumErr.integrity f) ∧
      parseOk f = false ∧ f ≠ after ∧
      (∃ o ∈ listBucket inp.objects
          (inp.dirPrefix ++ (if parseOk after then nextStr after else after)) limit,
        (pathSplit o.key).1 = inp.dirPrefix ∧ (pathSplit o.key).2 = f) ∧
      EnumErr.integrity f ≠ EnumErr.listBucketFailed := by
  obtain ⟨f, e1, e2, e3, hex⟩ := enumLoop_integrity inp.dirPrefix after _ hbad
  refine ⟨f, ?_, e2, e3, hex, by simp⟩
  have hred : (enumerateBlobs inp after limit).2 = (enumLoop inp.dirPrefix after
      (listBucket inp.objects
        (inp.dirPrefix ++ (if parseOk after then nextStr after else after)) limit)
      none).2 := by
    simp [enumerateBlobs, hfault, hlerr, hbudget]
  rw [hred]
  exact e1

/-- C8 witness: the key p/x sits inside the namespace but x is no
identifier; the call fails with the integrity error naming x. -/
theorem C8_integrity_witness :
    ∃ f, (enumerateBlobs ⟨[⟨[112, 47, 120], 5⟩], [112, 47], false, false, none⟩
        [] 1).2 = Except.error (EnumErr.integrity f) ∧
      parseOk f = false ∧ f ≠ [] ∧
      (∃ o ∈ listBucket [⟨[112, 47, 120], 5⟩]
          ([112, 47] ++ (if parseOk [] then nextStr [] else [])) 1,
        (pathSplit o.key).1 = [112, 47] ∧ (pathSplit o.key).2 = f) ∧
      EnumErr.integrity f ≠ EnumErr.listBucketFailed :=
  C8_integrity_error_fatal ⟨[⟨[112, 47, 120], 5⟩], [112, 47], false, false, none⟩
    [] 1 rfl rfl rfl (by decide)

/-- Every event the loop contributes to the trace is a channel send. -/
theorem enumLoop_trace_only_sends (pfx after : List Nat) (objs : List S3Obj)
    (budget : Option Nat) :
    ∀ e ∈ (enumLoop pfx after objs budget).1, ∃ r s, e = Event.send r s := by
  induction objs generalizing budget with
  | nil =>
    intro e he
    simp [enumLoop] at he
  | cons o rest ih =>
    intro e he
    by_cases hd : (pathSplit o.key).1 = pfx
    · by_cases hf : (pathSplit o.key).2 = after
      · rw [show enumLoop pfx after (o :: rest) budget = enumLoop pfx after rest budget
          from by cases budget <;> simp [enumLoop, hd, hf]] at he
        exact ih budget e he
      · by_cases hp : parseOk (pathSplit o.key).2 = false
        · rw [show (enumLoop pfx after (o :: rest) budget).1 = [] from
            by cases budget <;> simp [enumLoop, hd, hf, hp]] at he
          cases he
        · have hpt : parseOk (pathSplit o.key).2 = true := by
            cases hq : parseOk (pathSplit o.key).2
            · exact absurd hq hp
            · rfl
          cases budget with
          | none =>
            rw [show (enumLoop pfx after (o :: rest) none).1 =
                Event.send (pathSplit o.key).2 (o.size % 4294967296) ::
                (enumLoop pfx after rest none).1 from by simp [enumLoop, hd, hf, hpt]] at he
            rcases List.mem_cons.mp he with h | h
            · exact ⟨_, _, h⟩
            · exact ih none e h
          | some b =>
            cases b with
            | zero =>
              rw [show (enumLoop pfx after (o :: rest) (some 0)).1 = [] from
                by simp [enumLoop, hd, hf, hpt]] at he
              cases he
            | succ n =>
              rw [show (enumLoop pfx after (o :: rest) (some (n + 1))).1 =
                  Event.send (pathSplit o.key).2 (o.size % 4294967296) ::
                  (enumLoop pfx after rest (some n)).1 from
                by simp [enumLoop, hd, hf, hpt]] at he
              rcases List.mem_cons.mp he with h | h
              · exact ⟨_, _, h⟩
              · exact ih (some n) e h
    · rw [show enumLoop pfx after (o :: rest) budget = enumLoop pfx after rest budget
        from by cases budget <;> simp [enumLoop, hd]] at he
      exact ih budget e he

/-- The shape of every EnumerateBlobs trace: a closeDest-free body followed
by the one closeDest of the deferred close; under the fault hook the body
is empty and the outcome is the fault error. -/
theorem enumerateBlobs_trace_shape (inp : EnumInput) (after : List Nat) (limit : Nat) :
    ∃ tr, (enumerateBlobs inp after limit).1 = tr ++ [Event.closeDest] ∧
      Event.closeDest ∉ tr ∧
      (inp.faultFail = true → tr = [] ∧
        (enumerateBlobs inp after limit).2 = Except.error EnumErr.fault) := by
  cases hff : inp.faultFail with
  | true =>
    refine ⟨[], by simp [enumerateBlobs, hff], by simp, fun _ => ⟨rfl, ?_⟩⟩
    simp [enumerateBlobs, hff]
  | false =>
    cases hle : inp.listErr with
    | true =>
      refine ⟨[Event.listCall
          (inp.dirPrefix ++ (if parseOk after then nextStr after else after)) limit],
        by simp [enumerateBlobs, hff, hle], by simp, fun h => absurd h (by simp)⟩
    | false =>
      refine ⟨Event.listCall
          (inp.dirPrefix ++ (if parseOk after then nextStr after else after)) limit ::
          (enumLoop inp.dirPrefix after
            (listBucket inp.objects
              (inp.dirPrefix ++ (if parseOk after then nextStr after else after)) limit)
            inp.sendBudget).1,
        by simp [enumerateBlobs, hff, hle], ?_, fun h => absurd h (by simp)⟩
      intro hmem
      rcases List.mem_cons.mp hmem with h | h
      · cases h
      · obtain ⟨r, s, hrs⟩ := enumLoop_trace_only_sends _ _ _ _ _ h
        cases hrs

/-- C9: on every exit path the destination channel is closed exactly once —
the trace holds one closeDest and it is the final event — and when the
fault-injection hook fires the call makes no backend listing request and
fails with the fault error. -/
theorem C9_close_once_fault_first (inp : EnumInput) (after : List Nat) (limit : Nat) :
    (List.count Event.closeDest (enumerateBlobs inp after limit).1 = 1 ∧
     (enumerateBlobs inp after limit).1.getLast? = some Event.closeDest) ∧
    (inp.faultFail = true →
      (∀ s l, Event.listCall s l ∉ (enumerateBlobs inp after limit).1) ∧
      (enumerateBlobs inp after limit).2 = Except.error EnumErr.fault) := by
  obtain ⟨tr, h1, h2, h3⟩ := enumerateBlobs_trace_shape inp after limit
  refine ⟨⟨?_, ?_⟩, ?_⟩
  · rw [h1, List.count_append, List.count_eq_zero.mpr h2]
    rfl
  · rw [h1]
    exact List.getLast?_concat tr
  · intro hff
    obtain ⟨htr, herr⟩ := h3 hff
    subst htr
    refine ⟨?_, herr⟩
    intro s l hmem
    rw [h1] at hmem
    simp at hmem
